import Mathlib

/-!
Shallow embedding of the `Bits` bit-stream component of `src/bits.rs`
(crate `collectors`), together with theorems settling the specification
claims about it.

Modelling conventions:
* the Rust `String` holding the stream is a `List Char` (all characters are
  ASCII `'0'`, `'1'` or the delimiter `'|'`, so character = byte);
* a Rust panic (failed `assert!`, `unwrap()` of `None`, out-of-bounds byte
  slice) is `none`; a recoverable `Result::Err` is `Except.error`;
* methods taking `&mut self` are embedded in state-passing style: they
  return their result together with the (possibly updated) `Bits` value.
-/

namespace Collectors

/-- Endianness tag recorded at construction time (`enum Endianness`). -/
inductive Endianness where
  | BigEndian
  | LittleEndian
  deriving DecidableEq, Repr

/-- The error cases of Rust `from_str_radix` that can arise when parsing the
extracted binary-digit slices. -/
inductive ParseIntError where
  | Empty
  | InvalidDigit
  | PosOverflow
  deriving DecidableEq, Repr

/-- The stream owner (`struct Bits`): the remaining character string (binary
digits separated by delimiter characters), the delimiter, and the endianness
tag. The source has no separate cursor field: `move_n_bits` removes consumed
characters from the front of `bits`. -/
structure Bits where
  bits : List Char
  delimiter : Char
  endianness : Endianness
  deriving DecidableEq, Repr

/-- The value of Rust `format!` with a zero-padded binary specifier of width
`w` applied to `b < 2 ^ w`: exactly `w` binary digit characters, most
significant first. -/
def binDigitsFuel : Nat → Nat → List Char
  | 0, _ => []
  | w + 1, b => binDigitsFuel w (b / 2) ++ [if b % 2 = 1 then '1' else '0']

/-- Rust `Vec<String>::join(sep)`: concatenation with `sep` between
consecutive elements. -/
def join_with (sep : List Char) : List (List Char) → List Char
  | [] => []
  | [s] => s
  | s :: rest => s ++ sep ++ join_with sep rest

/-- The `Bits::from_*_big_endian` constructors: each element is formatted as
its `w`-digit binary string (most significant bit first) and the strings are
joined with `'|'`. Element values range over the `w`-bit unsigned type. -/
def from_unsigned_big_endian (w : Nat) (data : List Nat) : Bits :=
  { bits := join_with ['|'] (data.map (fun b => binDigitsFuel w b))
    delimiter := '|'
    endianness := Endianness.BigEndian }

/-- The `Bits::from_*_little_endian` constructors: as big-endian but each
element's digit string is reversed (`.chars().rev()`) before joining. -/
def from_unsigned_little_endian (w : Nat) (data : List Nat) : Bits :=
  { bits := join_with ['|'] (data.map (fun b => (binDigitsFuel w b).reverse))
    delimiter := '|'
    endianness := Endianness.LittleEndian }

def from_u8_big_endian (data : List Nat) : Bits := from_unsigned_big_endian 8 data

def from_u16_big_endian (data : List Nat) : Bits := from_unsigned_big_endian 16 data

def from_u32_big_endian (data : List Nat) : Bits := from_unsigned_big_endian 32 data

def from_u64_big_endian (data : List Nat) : Bits := from_unsigned_big_endian 64 data

def from_u128_big_endian (data : List Nat) : Bits := from_unsigned_big_endian 128 data

def from_u8_little_endian (data : List Nat) : Bits := from_unsigned_little_endian 8 data

/-- The collection loop of `Bits::get_next_n_bits`: walk the characters,
skipping delimiters, until `n` bit characters have been gathered; if the
string runs out first, the loop's `.nth(idx).unwrap()` panics (`none`). -/
def collectBits : List Char → Char → Nat → Option (List Char)
  | _, _, 0 => some []
  | [], _, _ + 1 => none
  | c :: rest, d, n + 1 =>
    if c == d then collectBits rest d (n + 1)
    else (collectBits rest d n).map (fun s => c :: s)

/-- Body of `Bits::get_next_n_bits`: `assert!(size_to_read <= self.bits.len())`
(a character count, delimiters included!) followed by the collection loop. -/
def read_slice (bits : List Char) (d : Char) (n : Nat) : Option (List Char) :=
  if n ≤ bits.length then collectBits bits d n else none

/-- `Bits::get_next_n_bits` in state-passing form; the method body never
writes `self`, so the returned state is the input state. -/
def get_next_n_bits (b : Bits) (n : Nat) : Option (List Char × Bits) :=
  (read_slice b.bits b.delimiter n).map (fun s => (s, b))

/-- Body of `Bits::get_next_n_bits_as_string`: the extracted slice, reversed
when `reverse` is requested. -/
def slice_string (bits : List Char) (d : Char) (n : Nat) (rev : Bool) : Option (List Char) :=
  (read_slice bits d n).map (fun s => if rev then s.reverse else s)

/-- `Bits::get_next_n_bits_as_string` in state-passing form (reads only). -/
def get_next_n_bits_as_string (b : Bits) (n : Nat) (rev : Bool) : Option (List Char × Bits) :=
  (slice_string b.bits b.delimiter n rev).map (fun s => (s, b))

/-- The left-to-right accumulation performed by `from_str_radix(s, 2)`. -/
def binValAux : Nat → List Char → Nat
  | acc, [] => acc
  | acc, c :: cs => binValAux (2 * acc + (if c == '1' then 1 else 0)) cs

/-- Numeric value of a binary digit string, most significant digit first. -/
def binVal (s : List Char) : Nat := binValAux 0 s

/-- Rust `uN::from_str_radix(s, 2)` for an unsigned type whose maximum value
is `max`: empty input and non-binary digits are errors, and a numeral value
above `max` is a positive overflow. -/
def from_str_radix_unsigned (max : Nat) (s : List Char) : Except ParseIntError Nat :=
  if s.isEmpty then Except.error ParseIntError.Empty
  else if s.any (fun c => !(c == '0' || c == '1')) then Except.error ParseIntError.InvalidDigit
  else if max < binVal s then Except.error ParseIntError.PosOverflow
  else Except.ok (binVal s)

/-- Rust `iN::from_str_radix(s, 2)` on the sign-free digit strings produced
by the stream: literal binary-numeral parsing bounded by the signed positive
maximum `max`; there is no two's-complement reinterpretation step, so the
result is always a non-negative integer. -/
def from_str_radix_signed (max : Nat) (s : List Char) : Except ParseIntError Int :=
  if s.isEmpty then Except.error ParseIntError.Empty
  else if s.any (fun c => !(c == '0' || c == '1')) then Except.error ParseIntError.InvalidDigit
  else if max < binVal s then Except.error ParseIntError.PosOverflow
  else Except.ok (binVal s : Int)

/-- Generic form of the unsigned `Bits::peek_next_data_as_*` family:
`assert!(size_to_read <= wcap)` (the capacity named in the assertion, which
for `usize` is 128 in the source), extract the slice, parse it with the
target type's maximum `max`. `none` models the assertion/lookup panics. -/
def peek_next_data_as_unsigned (wcap max : Nat) (b : Bits) (n : Nat) (rev : Bool) :
    Option (Except ParseIntError Nat × Bits) :=
  if n ≤ wcap then
    (get_next_n_bits_as_string b n rev).map (fun p => (from_str_radix_unsigned max p.1, p.2))
  else none

/-- Generic form of the signed `Bits::peek_next_data_as_*` family. -/
def peek_next_data_as_signed (wcap max : Nat) (b : Bits) (n : Nat) (rev : Bool) :
    Option (Except ParseIntError Int × Bits) :=
  if n ≤ wcap then
    (get_next_n_bits_as_string b n rev).map (fun p => (from_str_radix_signed max p.1, p.2))
  else none

def peek_next_data_as_u8 (b : Bits) (n : Nat) : Option (Except ParseIntError Nat × Bits) :=
  peek_next_data_as_unsigned 8 (2 ^ 8 - 1) b n false

def peek_next_data_as_u8_reversed (b : Bits) (n : Nat) : Option (Except ParseIntError Nat × Bits) :=
  peek_next_data_as_unsigned 8 (2 ^ 8 - 1) b n true

def peek_next_data_as_i8 (b : Bits) (n : Nat) : Option (Except ParseIntError Int × Bits) :=
  peek_next_data_as_signed 8 (2 ^ 7 - 1) b n false

/-- `Bits::peek_next_data_as_usize` on the 64-bit target: the source asserts
`size_to_read <= 128` (not the pointer width), while the parse is bounded by
the 64-bit `usize` maximum. -/
def peek_next_data_as_usize (b : Bits) (n : Nat) : Option (Except ParseIntError Nat × Bits) :=
  peek_next_data_as_unsigned 128 (2 ^ 64 - 1) b n false

/-- `Bits::peek_next_data_as_isize` on the 64-bit target: the source asserts
`size_to_read <= 128` (not the pointer width). -/
def peek_next_data_as_isize (b : Bits) (n : Nat) : Option (Except ParseIntError Int × Bits) :=
  peek_next_data_as_signed 128 (2 ^ 63 - 1) b n false

/-- Body of `Bits::move_n_bits`: `assert!(n < self.bits.len())` (strict, on
the character count), count delimiter characters among the first `n + 1`
characters (the byte slice up to index `n` inclusive), then keep the suffix
starting at `n + nb_delim`; an out-of-range suffix slice would also panic. -/
def moveCore (bits : List Char) (d : Char) (n : Nat) : Option (List Char) :=
  if n < bits.length then
    if n + ((bits.take (n + 1)).filter (fun c => c == d)).length ≤ bits.length then
      some (bits.drop (n + ((bits.take (n + 1)).filter (fun c => c == d)).length))
    else none
  else none

/-- `Bits::move_n_bits` in state-passing form: only `bits` is updated. -/
def move_n_bits (b : Bits) (n : Nat) : Option Bits :=
  (moveCore b.bits b.delimiter n).map (fun l => { b with bits := l })

/-- Generic form of the unsigned `Bits::consume_next_data_as_*` family:
peek, then advance with `move_n_bits`; the `?` operator returns a recoverable
parse error to the caller before the cursor ever moves. -/
def consume_next_data_as_unsigned (wcap max : Nat) (b : Bits) (n : Nat) (rev : Bool) :
    Option (Except ParseIntError Nat × Bits) :=
  match peek_next_data_as_unsigned wcap max b n rev with
  | none => none
  | some (Except.error e, b1) => some (Except.error e, b1)
  | some (Except.ok v, b1) => (move_n_bits b1 n).map (fun b2 => (Except.ok v, b2))

/-- Generic form of the signed `Bits::consume_next_data_as_*` family. -/
def consume_next_data_as_signed (wcap max : Nat) (b : Bits) (n : Nat) (rev : Bool) :
    Option (Except ParseIntError Int × Bits) :=
  match peek_next_data_as_signed wcap max b n rev with
  | none => none
  | some (Except.error e, b1) => some (Except.error e, b1)
  | some (Except.ok v, b1) => (move_n_bits b1 n).map (fun b2 => (Except.ok v, b2))

def consume_next_data_as_u8 (b : Bits) (n : Nat) : Option (Except ParseIntError Nat × Bits) :=
  consume_next_data_as_unsigned 8 (2 ^ 8 - 1) b n false

def consume_next_data_as_i8 (b : Bits) (n : Nat) : Option (Except ParseIntError Int × Bits) :=
  consume_next_data_as_signed 8 (2 ^ 7 - 1) b n false

/-- `Bits::as_vec_bool`: the remaining characters with delimiters filtered
out, each mapped to whether it is `'1'`. -/
def as_vec_bool (b : Bits) : List Bool :=
  (b.bits.filter (fun c => !(c == b.delimiter))).map (fun c => c == '1')

/-- The `Bits::endianness` accessor. -/
def endianness (b : Bits) : Endianness := b.endianness

/-- Specification-side description of a big-endian `w`-bit expansion: bit
`w - 1 - i` of the value at stream position `i` (most significant first). -/
def msbBits (w a : Nat) : List Bool :=
  (List.range w).map (fun i => a.testBit (w - 1 - i))

/-- Endianness-blind observation of an unsigned operation's outcome: the
parse result and the remaining character string of the successor state. -/
def obsU (r : Option (Except ParseIntError Nat × Bits)) :
    Option (Except ParseIntError Nat × List Char) :=
  r.map (fun p => (p.1, p.2.bits))

/-- Endianness-blind observation of a signed operation's outcome. -/
def obsI (r : Option (Except ParseIntError Int × Bits)) :
    Option (Except ParseIntError Int × List Char) :=
  r.map (fun p => (p.1, p.2.bits))

/-- A stream state with exactly the four bit characters `0100` remaining. -/
def demo4 : Bits :=
  { bits := ['0', '1', '0', '0'], delimiter := '|', endianness := Endianness.BigEndian }

/-- The state left behind by consuming 4 bits of `from_u8_big_endian [3]`. -/
def afterConsume4 : Bits :=
  { bits := ['0', '0', '1', '1'], delimiter := '|', endianness := Endianness.BigEndian }

/-! ### Helper lemmas about the reading primitives -/

/-- The collection loop panics exactly when fewer than `n` non-delimiter
characters remain in the whole string. -/
theorem collectBits_eq_none (d : Char) :
    ∀ (cs : List Char) (n : Nat), (cs.filter (fun c => !(c == d))).length < n →
      collectBits cs d n = none := by
  intro cs
  induction cs with
  | nil =>
    intro n h
    cases n with
    | zero => simp at h
    | succ m => rfl
  | cons c rest ih =>
    intro n h
    cases n with
    | zero => simp at h
    | succ m =>
      by_cases hc : (c == d) = true
      · simp only [collectBits, hc, if_true]
        apply ih
        simpa [List.filter_cons, hc] using h
      · rw [Bool.not_eq_true] at hc
        simp only [collectBits, hc, if_false]
        have hr : (rest.filter (fun c => !(c == d))).length < m := by
          simpa [List.filter_cons, hc] using h
        rw [ih m hr]
        rfl

/-- A successful collection returns exactly `n` characters. -/
theorem collectBits_length (d : Char) :
    ∀ (cs : List Char) (n : Nat) (s : List Char), collectBits cs d n = some s →
      s.length = n := by
  intro cs
  induction cs with
  | nil =>
    intro n s h
    cases n with
    | zero => cases h; rfl
    | succ m => cases h
  | cons c rest ih =>
    intro n s h
    cases n with
    | zero => cases h; rfl
    | succ m =>
      by_cases hc : (c == d) = true
      · simp only [collectBits, hc, if_true] at h
        exact ih (m + 1) s h
      · rw [Bool.not_eq_true] at hc
        simp only [collectBits, hc, if_false] at h
        cases ht : collectBits rest d m with
        | none => rw [ht] at h; cases h
        | some t =>
          rw [ht] at h
          cases h
          simp [ih m t ht]

/-- The running accumulator of binary parsing is bounded by the remaining
digit count. -/
theorem binValAux_lt : ∀ (cs : List Char) (acc : Nat),
    binValAux acc cs < (acc + 1) * 2 ^ cs.length := by
  intro cs
  induction cs with
  | nil => intro acc; simp [binValAux]
  | cons c rest ih =>
    intro acc
    have h1 := ih (2 * acc + (if c == '1' then 1 else 0))
    have hbit : (if c == '1' then 1 else 0) ≤ 1 := by split <;> omega
    calc binValAux acc (c :: rest)
        = binValAux (2 * acc + (if c == '1' then 1 else 0)) rest := rfl
      _ < (2 * acc + (if c == '1' then 1 else 0) + 1) * 2 ^ rest.length := h1
      _ ≤ ((acc + 1) * 2) * 2 ^ rest.length := by
          apply Nat.mul_le_mul_right
          omega
      _ = (acc + 1) * 2 ^ (c :: rest).length := by
          rw [List.length_cons, Nat.pow_succ]
          ring

/-- The value of an `n`-digit binary string is below `2 ^ n`. -/
theorem binVal_lt (s : List Char) : binVal s < 2 ^ s.length := by
  have h := binValAux_lt s 0
  simpa [binVal] using h

/-- A string of binary digits passes the invalid-digit scan. -/
theorem any_bad_digit_false {s : List Char} (h : ∀ c ∈ s, c = '0' ∨ c = '1') :
    (s.any (fun c => !(c == '0' || c == '1'))) = false := by
  rw [List.any_eq_false]
  intro c hc
  rcases h c hc with h0 | h0 <;> simp [h0]

/-- Successful unsigned parse of an in-range binary digit string. -/
theorem from_str_radix_unsigned_ok {max : Nat} {s : List Char}
    (hne : s ≠ []) (hdig : ∀ c ∈ s, c = '0' ∨ c = '1') (hle : binVal s ≤ max) :
    from_str_radix_unsigned max s = Except.ok (binVal s) := by
  unfold from_str_radix_unsigned
  rw [if_neg (by simp [List.isEmpty_iff]; exact hne),
    if_neg (by rw [any_bad_digit_false hdig]; simp),
    if_neg (Nat.not_lt.mpr hle)]

/-- Successful signed parse of an in-range binary digit string. -/
theorem from_str_radix_signed_ok {max : Nat} {s : List Char}
    (hne : s ≠ []) (hdig : ∀ c ∈ s, c = '0' ∨ c = '1') (hle : binVal s ≤ max) :
    from_str_radix_signed max s = Except.ok (binVal s : Int) := by
  unfold from_str_radix_signed
  rw [if_neg (by simp [List.isEmpty_iff]; exact hne),
    if_neg (by rw [any_bad_digit_false hdig]; simp),
    if_neg (Nat.not_lt.mpr hle)]

/-- Every character emitted by the binary formatter is a binary digit. -/
theorem binDigitsFuel_mem : ∀ (w b : Nat) (c : Char), c ∈ binDigitsFuel w b →
    c = '0' ∨ c = '1' := by
  intro w
  induction w with
  | zero => intro b c h; cases h
  | succ v ih =>
    intro b c h
    simp only [binDigitsFuel, List.mem_append, List.mem_singleton] at h
    rcases h with h | h
    · exact ih (b / 2) c h
    · subst h; split <;> simp

/-- The formatter's digits, read as booleans, are the most-significant-first
bits of the value. -/
theorem map_isOne_binDigitsFuel : ∀ (w b : Nat),
    (binDigitsFuel w b).map (fun c => c == '1') = msbBits w b := by
  intro w
  induction w with
  | zero => intro b; rfl
  | succ v ih =>
    intro b
    simp only [binDigitsFuel, List.map_append, ih (b / 2), msbBits, List.range_succ,
      List.map_cons, List.map_nil]
    congr 1
    · apply List.map_congr_left
      intro i hi
      rw [List.mem_range] at hi
      have h1 : v + 1 - 1 - i = (v - 1 - i) + 1 := by omega
      rw [h1, Nat.testBit_succ]
    · have h0 : v + 1 - 1 - v = 0 := by omega
      rw [h0]
      by_cases hb : b % 2 = 1 <;> simp [hb, Nat.testBit_zero]

/-- Filtering the delimiter out of a delimiter-joined list of delimiter-free
strings recovers their plain concatenation. -/
theorem filter_join_with (d : Char) :
    ∀ (parts : List (List Char)), (∀ p ∈ parts, ∀ c ∈ p, ¬c = d) →
      (join_with [d] parts).filter (fun c => !(c == d)) = parts.flatten := by
  intro parts
  induction parts with
  | nil => intro _; rfl
  | cons s rest ih =>
    intro h
    have hs : s.filter (fun c => !(c == d)) = s := by
      rw [List.filter_eq_self]
      intro a ha
      simp [h s (List.mem_cons_self s rest) a ha]
    cases rest with
    | nil => simpa [join_with] using hs
    | cons s2 rest2 =>
      have ih2 := ih (fun p hp => h p (List.mem_cons_of_mem s hp))
      simp only [join_with, List.flatten_cons, List.filter_append, hs, ih2]
      simp [List.filter_cons]

/-- The out-of-range paths of `get_next_n_bits`: too few bit characters means
a panic (either the length assertion or the loop's failed lookup). -/
theorem read_slice_none {bits : List Char} {d : Char} {n : Nat}
    (h : (bits.filter (fun c => !(c == d))).length < n) :
    read_slice bits d n = none := by
  unfold read_slice
  split
  · exact collectBits_eq_none d bits n h
  · rfl

/-- A peek never changes the stream state (no statement in any peek path
writes `self`), unsigned family. -/
theorem peek_unsigned_state_eq {wcap max : Nat} {b : Bits} {n : Nat} {rev : Bool}
    {r : Except ParseIntError Nat} {b1 : Bits}
    (h : peek_next_data_as_unsigned wcap max b n rev = some (r, b1)) : b1 = b := by
  unfold peek_next_data_as_unsigned get_next_n_bits_as_string at h
  split at h
  · cases hs : slice_string b.bits b.delimiter n rev with
    | none => rw [hs] at h; cases h
    | some s =>
      rw [hs] at h
      simp only [Option.map_some', Option.some.injEq, Prod.mk.injEq] at h
      exact h.2.symm
  · cases h

/-- A peek never changes the stream state, signed family. -/
theorem peek_signed_state_eq {wcap max : Nat} {b : Bits} {n : Nat} {rev : Bool}
    {r : Except ParseIntError Int} {b1 : Bits}
    (h : peek_next_data_as_signed wcap max b n rev = some (r, b1)) : b1 = b := by
  unfold peek_next_data_as_signed get_next_n_bits_as_string at h
  split at h
  · cases hs : slice_string b.bits b.delimiter n rev with
    | none => rw [hs] at h; cases h
    | some s =>
      rw [hs] at h
      simp only [Option.map_some', Option.some.injEq, Prod.mk.injEq] at h
      exact h.2.symm
  · cases h

/-- Filtering and mapping a dropped suffix is a drop of the filtered map. -/
theorem filter_map_drop {α β : Type} (p : α → Bool) (f : α → β) (l : List α) (m : Nat) :
    ((l.drop m).filter p).map f =
      ((l.filter p).map f).drop (((l.take m).filter p).length) := by
  have key : (l.filter p).map f =
      ((l.take m).filter p).map f ++ ((l.drop m).filter p).map f := by
    conv_lhs => rw [← List.take_append_drop m l]
    rw [List.filter_append, List.map_append]
  rw [key, ← List.length_map ((l.take m).filter p) f, List.drop_left]

/-! ### Claim theorems -/

/-- Claim C1 (code-bug evaluation): the big-endian construct/consume round
trip fails in the code at its last element. For width 8 and input `[1]`, the
single required consume's peek succeeds and returns 1 — enough bits remain —
but `move_n_bits` then fails its strict assertion `n < self.bits.len()`
(here `8 < 8`), so the consume panics; the round trip claimed by the spec
never completes for any nonempty input list. -/
theorem c1_round_trip_fails_at_last_element :
    peek_next_data_as_u8 (from_u8_big_endian [1]) 8 =
      some (Except.ok 1, from_u8_big_endian [1]) ∧
    consume_next_data_as_u8 (from_u8_big_endian [1]) 8 = none :=
  ⟨rfl, rfl⟩

/-- Claim C2: a consume (any target family, any bit order) of more bits than
remain in the stream is fatal: the peek stage already panics (length
assertion or the loop's failed lookup), so the consume returns `none` —
`move_n_bits`, the only operation that mutates the stream, is never reached,
and no successor state with a moved cursor exists. -/
theorem c2_out_of_range_consume_is_fatal (wcap max : Nat) (b : Bits) (n : Nat) (rev : Bool)
    (h : (as_vec_bool b).length < n) :
    peek_next_data_as_unsigned wcap max b n rev = none ∧
    consume_next_data_as_unsigned wcap max b n rev = none ∧
    peek_next_data_as_signed wcap max b n rev = none ∧
    consume_next_data_as_signed wcap max b n rev = none := by
  have hflt : (b.bits.filter (fun c => !(c == b.delimiter))).length < n := by
    simpa [as_vec_bool] using h
  have hrs : read_slice b.bits b.delimiter n = none := read_slice_none hflt
  have hpu : peek_next_data_as_unsigned wcap max b n rev = none := by
    simp [peek_next_data_as_unsigned, get_next_n_bits_as_string, slice_string, hrs]
  have hps : peek_next_data_as_signed wcap max b n rev = none := by
    simp [peek_next_data_as_signed, get_next_n_bits_as_string, slice_string, hrs]
  refine ⟨hpu, ?_, hps, ?_⟩
  · unfold consume_next_data_as_unsigned
    rw [hpu]
  · unfold consume_next_data_as_signed
    rw [hps]

/-- Witness for C2: a stream with 4 remaining bits asked to consume 5 bits. -/
theorem c2_witness :
    (as_vec_bool demo4).length < 5 ∧
    (peek_next_data_as_unsigned 8 (2 ^ 8 - 1) demo4 5 false = none ∧
      consume_next_data_as_unsigned 8 (2 ^ 8 - 1) demo4 5 false = none ∧
      peek_next_data_as_signed 8 (2 ^ 8 - 1) demo4 5 false = none ∧
      consume_next_data_as_signed 8 (2 ^ 8 - 1) demo4 5 false = none) :=
  ⟨by decide, c2_out_of_range_consume_is_fatal 8 (2 ^ 8 - 1) demo4 5 false (by decide)⟩

/-- Claim C3: on any stream whose next 8 bits are `10000000`, the signed
8-bit read parses the slice as the literal numeral 128, which exceeds the
signed maximum 127, and fails with `PosOverflow` (never two's-complement
`-128`); the unsigned 8-bit read of the same bits succeeds with 128; and the
overflow error propagates out of the consume before `move_n_bits` runs, so
the stream state is unchanged. -/
theorem c3_signed_literal_parse_asymmetry (b : Bits)
    (h : get_next_n_bits b 8 = some (['1', '0', '0', '0', '0', '0', '0', '0'], b)) :
    peek_next_data_as_i8 b 8 = some (Except.error ParseIntError.PosOverflow, b) ∧
    peek_next_data_as_u8 b 8 = some (Except.ok 128, b) ∧
    consume_next_data_as_i8 b 8 = some (Except.error ParseIntError.PosOverflow, b) := by
  have hrs : read_slice b.bits b.delimiter 8 =
      some ['1', '0', '0', '0', '0', '0', '0', '0'] := by
    unfold get_next_n_bits at h
    cases hr : read_slice b.bits b.delimiter 8 with
    | none => rw [hr] at h; cases h
    | some s =>
      rw [hr] at h
      simp only [Option.map_some', Option.some.injEq, Prod.mk.injEq] at h
      rw [h.1]
  have hpi : peek_next_data_as_signed 8 (2 ^ 7 - 1) b 8 false =
      some (Except.error ParseIntError.PosOverflow, b) := by
    simp only [peek_next_data_as_signed, get_next_n_bits_as_string, slice_string, hrs]
    rfl
  have hpu : peek_next_data_as_unsigned 8 (2 ^ 8 - 1) b 8 false =
      some (Except.ok 128, b) := by
    simp only [peek_next_data_as_unsigned, get_next_n_bits_as_string, slice_string, hrs]
    rfl
  refine ⟨hpi, hpu, ?_⟩
  unfold consume_next_data_as_i8 consume_next_data_as_signed
  rw [hpi]

/-- Witness for C3: the 8-bit stream built from the single byte 128. -/
theorem c3_witness :
    peek_next_data_as_i8 (from_u8_big_endian [128]) 8 =
      some (Except.error ParseIntError.PosOverflow, from_u8_big_endian [128]) ∧
    peek_next_data_as_u8 (from_u8_big_endian [128]) 8 =
      some (Except.ok 128, from_u8_big_endian [128]) ∧
    consume_next_data_as_i8 (from_u8_big_endian [128]) 8 =
      some (Except.error ParseIntError.PosOverflow, from_u8_big_endian [128]) :=
  c3_signed_literal_parse_asymmetry (from_u8_big_endian [128]) (by rfl)

/-- Claim C4: the little-endian constructor emits every element's `w`-bit
representation with its bit order reversed (least significant bit first),
elements concatenated in input order; in particular the boolean view of the
stream built little-endian from the single 8-bit value 1 is
`[true, false, false, false, false, false, false, false]`. -/
theorem c4_little_endian_is_bit_reversal :
    (∀ (w : Nat) (data : List Nat),
      as_vec_bool (from_unsigned_little_endian w data) =
        (data.map (fun a => (msbBits w a).reverse)).flatten) ∧
    as_vec_bool (from_u8_little_endian [1]) =
      [true, false, false, false, false, false, false, false] := by
  constructor
  · intro w data
    have hparts : ∀ p ∈ data.map (fun b => (binDigitsFuel w b).reverse),
        ∀ c ∈ p, ¬c = '|' := by
      intro p hp c hc
      rw [List.mem_map] at hp
      obtain ⟨a, _, rfl⟩ := hp
      rw [List.mem_reverse] at hc
      rcases binDigitsFuel_mem w a c hc with h0 | h0 <;> simp [h0]
    show ((join_with ['|'] (data.map fun b => (binDigitsFuel w b).reverse)).filter
        (fun c => !(c == '|'))).map (fun c => c == '1') = _
    rw [filter_join_with '|' (data.map fun b => (binDigitsFuel w b).reverse) hparts,
      List.map_flatten, List.map_map]
    congr 1
    apply List.map_congr_left
    intro a _
    simp [Function.comp, List.map_reverse, map_isOne_binDigitsFuel]
  · decide

/-- Claim C5: peeking (any width, signedness, or bit order) is
non-destructive — a successful peek returns the stream exactly as it was —
and idempotent: repeating the same peek on the returned state yields the
same parse result and the same state. -/
theorem c5_peek_nondestructive_idempotent (wcap max : Nat) (b : Bits) (n : Nat) (rev : Bool) :
    (∀ (r : Except ParseIntError Nat) (b1 : Bits),
      peek_next_data_as_unsigned wcap max b n rev = some (r, b1) →
        b1 = b ∧ peek_next_data_as_unsigned wcap max b1 n rev = some (r, b1)) ∧
    (∀ (r : Except ParseIntError Int) (b1 : Bits),
      peek_next_data_as_signed wcap max b n rev = some (r, b1) →
        b1 = b ∧ peek_next_data_as_signed wcap max b1 n rev = some (r, b1)) := by
  constructor
  · intro r b1 h
    have hb := peek_unsigned_state_eq h
    subst hb
    exact ⟨rfl, h⟩
  · intro r b1 h
    have hb := peek_signed_state_eq h
    subst hb
    exact ⟨rfl, h⟩

/-- Witness for C5: peeking 4 bits of the `0100` stream twice. -/
theorem c5_witness :
    demo4 = demo4 ∧
    peek_next_data_as_unsigned 8 (2 ^ 8 - 1) demo4 4 false = some (Except.ok 4, demo4) :=
  (c5_peek_nondestructive_idempotent 8 (2 ^ 8 - 1) demo4 4 false).1 (Except.ok 4) demo4 rfl

/-- Claim C6: for an in-range read, the normal variant returns the numeric
value of the extracted slice in stream order and the reversed variant returns
the numeric value of the same slice with its bit order reversed. -/
theorem c6_reversed_read_semantics (wcap : Nat) (b : Bits) (n : Nat) (slice : List Char)
    (hn1 : 1 ≤ n) (hcap : n ≤ wcap)
    (hs : read_slice b.bits b.delimiter n = some slice)
    (hdig : ∀ c ∈ slice, c = '0' ∨ c = '1') :
    peek_next_data_as_unsigned wcap (2 ^ wcap - 1) b n false =
      some (Except.ok (binVal slice), b) ∧
    peek_next_data_as_unsigned wcap (2 ^ wcap - 1) b n true =
      some (Except.ok (binVal slice.reverse), b) := by
  have hlen : slice.length = n := by
    unfold read_slice at hs
    split at hs
    · exact collectBits_length b.delimiter b.bits n slice hs
    · cases hs
  have hne : slice ≠ [] := by
    intro hnil
    rw [hnil] at hlen
    simp at hlen
    omega
  have hner : slice.reverse ≠ [] := by simp [hne]
  have hdigr : ∀ c ∈ slice.reverse, c = '0' ∨ c = '1' := by
    intro c hc
    exact hdig c (List.mem_reverse.mp hc)
  have hpow : 2 ^ n ≤ 2 ^ wcap := Nat.pow_le_pow_right (by omega) hcap
  have hv : binVal slice ≤ 2 ^ wcap - 1 := by
    have h1 := binVal_lt slice
    rw [hlen] at h1
    omega
  have hvr : binVal slice.reverse ≤ 2 ^ wcap - 1 := by
    have h1 := binVal_lt slice.reverse
    rw [List.length_reverse, hlen] at h1
    omega
  constructor
  · simp only [peek_next_data_as_unsigned, get_next_n_bits_as_string, slice_string, hs,
      if_pos hcap]
    simp [from_str_radix_unsigned_ok hne hdig hv]
  · simp only [peek_next_data_as_unsigned, get_next_n_bits_as_string, slice_string, hs,
      if_pos hcap]
    simp [from_str_radix_unsigned_ok hner hdigr hvr]

/-- Witness for C6: the slice `0100` reads as 4 normally and as 2 reversed. -/
theorem c6_witness :
    peek_next_data_as_unsigned 8 (2 ^ 8 - 1) demo4 4 false = some (Except.ok 4, demo4) ∧
    peek_next_data_as_unsigned 8 (2 ^ 8 - 1) demo4 4 true = some (Except.ok 2, demo4) :=
  c6_reversed_read_semantics 8 demo4 4 ['0', '1', '0', '0'] (by decide) (by decide)
    (by rfl) (by decide)

set_option maxRecDepth 8192 in
/-- Counterexample for C7: a `usize` peek of 100 bits — far beyond the 64-bit
pointer width — is not rejected by the precondition assertion: the source
asserts `size_to_read <= 128` for `usize`, so the read proceeds and here
succeeds with value 0 on a 104-bit stream, instead of the fatal precondition
failure the claim requires. -/
theorem c7_counterexample_usize_oversize_not_rejected :
    peek_next_data_as_usize (from_u8_big_endian (List.replicate 13 0)) 100 =
      some (Except.ok 0, from_u8_big_endian (List.replicate 13 0)) := rfl

/-- Claim C7 as amended: requests larger than the capacity named in each
method's assertion are rejected fatally before any bits are read — but that
asserted capacity is the type's bit width only for the fixed-width targets;
for `usize`/`isize` the source asserts 128, not the pointer width, so
pointer-width overruns up to 128 bits pass the precondition. -/
theorem c7_amended_width_assertion (wcap max : Nat) (b : Bits) (n : Nat) (rev : Bool)
    (h : wcap < n) :
    peek_next_data_as_unsigned wcap max b n rev = none ∧
    peek_next_data_as_signed wcap max b n rev = none ∧
    consume_next_data_as_unsigned wcap max b n rev = none ∧
    consume_next_data_as_signed wcap max b n rev = none := by
  have hpu : peek_next_data_as_unsigned wcap max b n rev = none := by
    unfold peek_next_data_as_unsigned
    rw [if_neg (Nat.not_le.mpr h)]
  have hps : peek_next_data_as_signed wcap max b n rev = none := by
    unfold peek_next_data_as_signed
    rw [if_neg (Nat.not_le.mpr h)]
  refine ⟨hpu, hps, ?_, ?_⟩
  · unfold consume_next_data_as_unsigned
    rw [hpu]
  · unfold consume_next_data_as_signed
    rw [hps]

/-- Witness for C7's amended statement: 9 bits requested against the 8-bit
capacity of the `u8`/`i8` family. -/
theorem c7_witness :
    peek_next_data_as_unsigned 8 (2 ^ 8 - 1) demo4 9 false = none ∧
    peek_next_data_as_signed 8 (2 ^ 8 - 1) demo4 9 false = none ∧
    consume_next_data_as_unsigned 8 (2 ^ 8 - 1) demo4 9 false = none ∧
    consume_next_data_as_signed 8 (2 ^ 8 - 1) demo4 9 false = none :=
  c7_amended_width_assertion 8 (2 ^ 8 - 1) demo4 9 false (by decide)

/-- Counterexample for C8: `as_vec_bool` does not ignore the cursor. After
consuming 4 bits of the stream built from the byte 3, the consumed prefix is
physically removed from the stored string, and `as_vec_bool` returns only
the four remaining bits — not the eight bits present at construction. -/
theorem c8_counterexample_boolean_view_tracks_cursor :
    consume_next_data_as_u8 (from_u8_big_endian [3]) 4 =
      some (Except.ok 0, afterConsume4) ∧
    as_vec_bool afterConsume4 ≠ as_vec_bool (from_u8_big_endian [3]) :=
  ⟨rfl, by decide⟩

/-- Claim C8 as amended: `as_vec_bool` returns the *remaining* bits of the
stream as booleans. It is unchanged by peeks, and a successful consume
leaves it a suffix (a drop) of its previous value, because consuming removes
the consumed characters from the front of the stored string. -/
theorem c8_amended_boolean_view (wcap max : Nat) (b : Bits) (n : Nat) (rev : Bool) :
    (∀ (r : Except ParseIntError Nat) (b1 : Bits),
      peek_next_data_as_unsigned wcap max b n rev = some (r, b1) →
        as_vec_bool b1 = as_vec_bool b) ∧
    (∀ (v : Nat) (b2 : Bits),
      consume_next_data_as_unsigned wcap max b n rev = some (Except.ok v, b2) →
        ∃ k, as_vec_bool b2 = (as_vec_bool b).drop k) := by
  constructor
  · intro r b1 h
    rw [peek_unsigned_state_eq h]
  · intro v b2 h
    unfold consume_next_data_as_unsigned at h
    split at h
    · exact absurd h (by simp)
    · exact absurd h (by simp)
    · rename_i v1 b1 hp
      have hb1 : b = b1 := (peek_unsigned_state_eq hp).symm
      subst hb1
      rw [Option.map_eq_some'] at h
      obtain ⟨b2', hm, heq⟩ := h
      simp only [Prod.mk.injEq] at heq
      obtain ⟨-, rfl⟩ := heq
      unfold move_n_bits at hm
      rw [Option.map_eq_some'] at hm
      obtain ⟨l, hmc, rfl⟩ := hm
      unfold moveCore at hmc
      split at hmc
      · split at hmc
        · simp only [Option.some.injEq] at hmc
          subst hmc
          refine ⟨((b.bits.take (n + ((b.bits.take (n + 1)).filter
              (fun c => c == b.delimiter)).length)).filter
              (fun c => !(c == b.delimiter))).length, ?_⟩
          exact filter_map_drop _ _ b.bits _
        · cases hmc
      · cases hmc

/-- Witness for C8's amended statement: instantiated at the byte-3 stream,
peeking leaves the view unchanged and the 4-bit consume leaves a suffix. -/
theorem c8_witness :
    as_vec_bool (from_u8_big_endian [3]) = as_vec_bool (from_u8_big_endian [3]) ∧
    (∃ k, as_vec_bool afterConsume4 = (as_vec_bool (from_u8_big_endian [3])).drop k) :=
  ⟨(c8_amended_boolean_view 8 (2 ^ 8 - 1) (from_u8_big_endian [3]) 4 false).1
      (Except.ok 0) (from_u8_big_endian [3]) rfl,
    (c8_amended_boolean_view 8 (2 ^ 8 - 1) (from_u8_big_endian [3]) 4 false).2
      0 afterConsume4 rfl⟩

/-- Claim C9: the endianness tag does not interfere with reading. Two stream
states that differ only in the recorded endianness give identical parse
results and identical successor bit strings under every peek and consume
(any capacity, signedness, size, or bit order); the tag is observable only
through the `endianness` accessor. -/
theorem c9_endianness_noninterference (wcap max : Nat) (n : Nat) (rev : Bool) (b : Bits)
    (e : Endianness) :
    obsU (peek_next_data_as_unsigned wcap max { b with endianness := e } n rev) =
      obsU (peek_next_data_as_unsigned wcap max b n rev) ∧
    obsI (peek_next_data_as_signed wcap max { b with endianness := e } n rev) =
      obsI (peek_next_data_as_signed wcap max b n rev) ∧
    obsU (consume_next_data_as_unsigned wcap max { b with endianness := e } n rev) =
      obsU (consume_next_data_as_unsigned wcap max b n rev) ∧
    obsI (consume_next_data_as_signed wcap max { b with endianness := e } n rev) =
      obsI (consume_next_data_as_signed wcap max b n rev) ∧
    endianness { b with endianness := e } = e := by
  have hpu_shape : peek_next_data_as_unsigned wcap max { b with endianness := e } n rev =
      (peek_next_data_as_unsigned wcap max b n rev).map
        (fun p => (p.1, { b with endianness := e })) := by
    unfold peek_next_data_as_unsigned get_next_n_bits_as_string
    dsimp only
    by_cases hn : n ≤ wcap
    · rw [if_pos hn, if_pos hn]
      cases slice_string b.bits b.delimiter n rev <;> rfl
    · rw [if_neg hn, if_neg hn]
      rfl
  have hps_shape : peek_next_data_as_signed wcap max { b with endianness := e } n rev =
      (peek_next_data_as_signed wcap max b n rev).map
        (fun p => (p.1, { b with endianness := e })) := by
    unfold peek_next_data_as_signed get_next_n_bits_as_string
    dsimp only
    by_cases hn : n ≤ wcap
    · rw [if_pos hn, if_pos hn]
      cases slice_string b.bits b.delimiter n rev <;> rfl
    · rw [if_neg hn, if_neg hn]
      rfl
  have hm_shape : move_n_bits { b with endianness := e } n =
      (move_n_bits b n).map (fun x => { x with endianness := e }) := by
    unfold move_n_bits
    dsimp only
    cases moveCore b.bits b.delimiter n <;> rfl
  refine ⟨?_, ?_, ?_, ?_, rfl⟩
  · rw [hpu_shape]
    cases hp : peek_next_data_as_unsigned wcap max b n rev with
    | none => rfl
    | some p =>
      obtain ⟨r, b1⟩ := p
      have hb1 : b = b1 := (peek_unsigned_state_eq hp).symm
      subst hb1
      rfl
  · rw [hps_shape]
    cases hp : peek_next_data_as_signed wcap max b n rev with
    | none => rfl
    | some p =>
      obtain ⟨r, b1⟩ := p
      have hb1 : b = b1 := (peek_signed_state_eq hp).symm
      subst hb1
      rfl
  · unfold consume_next_data_as_unsigned
    rw [hpu_shape]
    cases hp : peek_next_data_as_unsigned wcap max b n rev with
    | none => rfl
    | some p =>
      obtain ⟨r, b1⟩ := p
      have hb1 : b = b1 := (peek_unsigned_state_eq hp).symm
      subst hb1
      cases r with
      | error err => rfl
      | ok v =>
        simp only [Option.map_some']
        rw [hm_shape]
        cases move_n_bits b n <;> rfl
  · unfold consume_next_data_as_signed
    rw [hps_shape]
    cases hp : peek_next_data_as_signed wcap max b n rev with
    | none => rfl
    | some p =>
      obtain ⟨r, b1⟩ := p
      have hb1 : b = b1 := (peek_signed_state_eq hp).symm
      subst hb1
      cases r with
      | error err => rfl
      | ok v =>
        simp only [Option.map_some']
        rw [hm_shape]
        cases move_n_bits b n <;> rfl

end Collectors
